import Mathlib

/-
Verification of the RAG repository's semantic chunker (utils.js) and
retrieval evaluator (test.js) against its natural-language specification.

Shallow embedding conventions:
* JS strings are Lean `String`s; `toLowerCase` is modelled by mapping
  `Char.toLower` over the characters; `String.prototype.includes` is a
  contiguous-substring test on the character lists.
* JS floating-point numbers are modelled as real numbers.  Where the JS
  code can produce `NaN` (division by zero: `0/0`), the value is modelled
  as `Option ℝ` with `none` standing for `NaN`; the IEEE rule that every
  comparison against `NaN` is false is modelled explicitly (`jsLt`).
* Token counts (`encode(sent).length` from gpt-tokenizer) are naturals.
  The tokenizer and the sentence segmenter (`compromise`) are external
  libraries, so the chunker is parameterised over the sentence list, the
  per-sentence embedding function and the per-sentence token count, which
  is exactly what the chunker's loop consumes.
-/

namespace RAG

/-! ### Text utilities: `toLowerCase` and `includes` -/

/-- Model of `String.prototype.toLowerCase`, character by character. -/
def lowerChars (s : List Char) : List Char := s.map Char.toLower

/-- Model of `toLowerCase` on `String`. -/
def strLower (s : String) : String := ⟨lowerChars s.data⟩

/-- Does `needle` occur at the head of `hay`? -/
def matchesAt : List Char → List Char → Bool
  | _, [] => true
  | [], _ :: _ => false
  | h :: hs, n :: ns => h == n && matchesAt hs ns

/-- Does `hay` contain `needle` as a contiguous substring?  Model of
`String.prototype.includes` on character lists. -/
def hasSub : List Char → List Char → Bool
  | hay, needle =>
    matchesAt hay needle ||
      match hay with
      | [] => false
      | _ :: t => hasSub t needle

/-- Model of `hay.includes(needle)` on `String`. -/
def strIncludes (hay needle : String) : Bool := hasSub hay.data needle.data

/-! ### Search results and the per-query metrics of test.js

`SearchResult` models one ranked entry returned by the vector index; the
metric functions of test.js read only `payload.text`, so only that field
is modelled. -/

/-- A ranked search result; `text` models `result.payload.text`, the only
payload field read by the metric functions. -/
structure SearchResult where
  text : String
deriving DecidableEq

/-- Model of JS `a / b` for the natural-number counts of test.js, where
the numerator is never positive when the denominator is zero, so the
division-by-zero case is exactly `0/0 = NaN`, modelled as `none`. -/
noncomputable def jsDivNat (a b : ℕ) : Option ℝ := if b = 0 then none else some ((a : ℝ) / b)

/-- Model of test.js `calculateKeywordCoverage`'s `combinedText`:
`results.map(r => r.payload.text.toLowerCase()).join(' ')`. -/
def combinedText (results : List SearchResult) : String :=
  String.intercalate " " (results.map fun r => strLower r.text)

/-- Model of test.js `calculateKeywordCoverage` (lines 94-106):
`foundKeywords.length / keywords.length` where a keyword is found when its
lowercased form occurs in the joined lowercased result texts.  With an
empty keyword list the JS code computes `0/0 = NaN` (`none`). -/
noncomputable def calculateKeywordCoverage (results : List SearchResult) (keywords : List String) :
    Option ℝ :=
  let combined := combinedText results
  jsDivNat (keywords.filter fun k => strIncludes combined (strLower k)).length
    keywords.length

/-- Model of the relevance test inside test.js `calculateMRR` (lines 123-127):
the result's lowercased text contains at least one lowercased keyword. -/
def isRelevantRes (keywords : List String) (r : SearchResult) : Bool :=
  keywords.any fun k => strIncludes (strLower r.text) (strLower k)

/-- The loop of test.js `calculateMRR`, carrying the 0-based index `i`:
return `1 / (i + 1)` at the first relevant result, else `0` at the end. -/
noncomputable def mrrGo (keywords : List String) : List SearchResult → ℕ → ℝ
  | [], _ => 0
  | r :: rs, i =>
    if isRelevantRes keywords r then 1 / ((i : ℝ) + 1) else mrrGo keywords rs (i + 1)

/-- Model of test.js `calculateMRR` (lines 121-137). -/
noncomputable def calculateMRR (results : List SearchResult) (keywords : List String) : ℝ :=
  mrrGo keywords results 0

/-- The 0-based index of the first relevant result, if any; the reference
notion used to state the MRR claim. -/
def firstRelIdx (keywords : List String) : List SearchResult → Option ℕ
  | [] => none
  | r :: rs =>
    if isRelevantRes keywords r then some 0
    else (firstRelIdx keywords rs).map (· + 1)

/-! ### nDCG (test.js lines 150-178)

The per-result relevance is the fraction of keywords found in the result's
text; `calculateNDCG` is stated for non-empty keyword lists (with an empty
keyword list the JS code's `matchedKeywords.length / keywords.length`
would be `0/0 = NaN`; that degenerate case is covered by the keyword
coverage claims, not by the nDCG claim). -/

/-- Model of the per-result relevance score of test.js `calculateNDCG`
(lines 152-159): the proportion of keywords found in the result's text. -/
noncomputable def relevanceScore (keywords : List String) (r : SearchResult) : ℝ :=
  ((keywords.filter fun k => strIncludes (strLower r.text) (strLower k)).length : ℝ) /
    keywords.length

/-- A positionally discounted sum: element at offset `i` contributes
`value / w i`.  The JS `reduce((sum, rel, i) => sum + rel / log2(i + 2))`
is this with `w = discount`. -/
noncomputable def weightedGain (w : ℕ → ℝ) : List ℝ → ℝ
  | [] => 0
  | a :: t => a / w 0 + weightedGain (fun i => w (i + 1)) t

/-- The discount factor of test.js: `Math.log2(i + 2)` for 0-based `i`. -/
noncomputable def discount (i : ℕ) : ℝ := Real.logb 2 ((i : ℝ) + 2)

noncomputable instance : DecidableRel (fun a b : ℝ => b ≤ a) :=
  fun a b => inferInstanceAs (Decidable (b ≤ a))

/-- Model of `[...relevanceScores].sort((a, b) => b - a)`: a stable sort
into descending order (JS `Array.prototype.sort` is stable and the numeric
comparator `b - a` orders descending). -/
noncomputable def sortDesc (l : List ℝ) : List ℝ :=
  List.insertionSort (fun a b : ℝ => b ≤ a) l

/-- The `dcg` of test.js `calculateNDCG` (lines 162-165). -/
noncomputable def dcgOf (results : List SearchResult) (keywords : List String) : ℝ :=
  weightedGain discount (results.map (relevanceScore keywords))

/-- The `idcg` of test.js `calculateNDCG` (lines 169-172): the same
relevance scores sorted descending, then discounted. -/
noncomputable def idcgOf (results : List SearchResult) (keywords : List String) : ℝ :=
  weightedGain discount (sortDesc (results.map (relevanceScore keywords)))

/-- Model of test.js `calculateNDCG` (lines 150-178): `dcg / idcg`, with
the `if (idcg === 0) return 0` guard. -/
noncomputable def calculateNDCG (results : List SearchResult) (keywords : List String) : ℝ :=
  if idcgOf results keywords = 0 then 0 else dcgOf results keywords / idcgOf results keywords

/-! ### The aggregator of test.js `runFullEvaluation` (lines 207-250)

Per-query evaluation (`evaluateTestCase`) performs network I/O against the
embedding provider and the vector index, so the model takes the per-query
outcome as a function argument `evalFn`; `runFullEvaluation` maps it over
the test questions (the awaited loop, lines 212-221) and then aggregates.
Per-query metric values are modelled as (finite) reals; the only division
the aggregator itself performs is by a list length, modelled by `jsDiv`
(`0/0 = NaN = none` when the list is empty). -/

/-- The per-query metric values stored by `evaluateTestCase`. -/
structure Metrics where
  keywordCoverage : ℝ
  mrr : ℝ
  ndcg : ℝ

/-- One entry of `results` in `runFullEvaluation`: the fields the
aggregation reads (`category` and `metrics`; the remaining fields -
question, keywords, reference answer, chunks - are carried along but never
read by the aggregation). -/
structure QueryResult where
  category : String
  metrics : Metrics

/-- Aggregate metric values; `none` models a `NaN` produced by the JS
division `sum / 0` (empty query set: `0/0`). -/
structure AggMetrics where
  keywordCoverage : Option ℝ
  mrr : Option ℝ
  ndcg : Option ℝ

/-- One per-category entry of `metricsByCategory`. -/
structure CategoryMetrics where
  count : ℕ
  keywordCoverage : Option ℝ
  mrr : Option ℝ
  ndcg : Option ℝ

/-- The record returned by `runFullEvaluation` (lines 244-249). -/
structure EvaluationRun where
  totalQuestions : ℕ
  aggregateMetrics : AggMetrics
  metricsByCategory : List (String × CategoryMetrics)
  detailedResults : List QueryResult

/-- Model of the JS division `sum / results.length`: `NaN` (`none`) when
the length is zero (the numerator, an empty `reduce`, is then `0`). -/
noncomputable def jsDiv (a : ℝ) (n : ℕ) : Option ℝ := if n = 0 then none else some (a / n)

/-- Model of `results.reduce((sum, r) => sum + f(r), 0)`. -/
def sumBy (f : QueryResult → ℝ) (rs : List QueryResult) : ℝ :=
  rs.foldl (fun acc r => acc + f r) 0

/-- Model of the `aggregateMetrics` object of test.js (lines 224-228). -/
noncomputable def aggregateOver (rs : List QueryResult) : AggMetrics :=
  ⟨jsDiv (sumBy (fun r => r.metrics.keywordCoverage) rs) rs.length,
   jsDiv (sumBy (fun r => r.metrics.mrr) rs) rs.length,
   jsDiv (sumBy (fun r => r.metrics.ndcg) rs) rs.length⟩

/-- Model of `[...new Set(results.map(r => r.category))]`: the categories
in order of first occurrence, `seen` accumulating the ones already kept. -/
def dedupGo (seen : List String) : List String → List String
  | [] => []
  | c :: rest => if c ∈ seen then dedupGo seen rest else c :: dedupGo (c :: seen) rest

/-- The category list of test.js line 231. -/
def dedupFirst (l : List String) : List String := dedupGo [] l

/-- Model of the per-category entry built in the loop of lines 234-242. -/
noncomputable def categoryMetricsOf (rs : List QueryResult) (c : String) : CategoryMetrics :=
  let categoryResults := rs.filter fun r => r.category == c
  ⟨categoryResults.length,
   jsDiv (sumBy (fun r => r.metrics.keywordCoverage) categoryResults) categoryResults.length,
   jsDiv (sumBy (fun r => r.metrics.mrr) categoryResults) categoryResults.length,
   jsDiv (sumBy (fun r => r.metrics.ndcg) categoryResults) categoryResults.length⟩

/-- Model of the `metricsByCategory` mapping of test.js (lines 231-242). -/
noncomputable def metricsByCategory (rs : List QueryResult) : List (String × CategoryMetrics) :=
  (dedupFirst (rs.map fun r => r.category)).map fun c => (c, categoryMetricsOf rs c)

/-- Model of test.js `runFullEvaluation` (lines 207-250), parameterised by
the per-query evaluation outcome `evalFn` (the awaited `evaluateTestCase`,
which performs external I/O). -/
noncomputable def runFullEvaluation {TC : Type} (evalFn : TC → QueryResult)
    (testQuestions : List TC) : EvaluationRun :=
  let results := testQuestions.map evalFn
  ⟨testQuestions.length, aggregateOver results, metricsByCategory results, results⟩

/-! ### The semantic chunker of utils.js (part_000 lines 100-196)

`cosineSimilarity` (lines 100-108) computes `dot / (sqrt(normA) *
sqrt(normB))`.  Over the reals the denominator is zero exactly when one of
the vectors is all-zero, and then the numerator is zero too, so the JS
result is `0/0 = NaN`, modelled as `none`.  The JS loop runs over the
indices of `a`; for the equal-length vectors guaranteed by the embedding
provider contract this equals the sums below. -/

/-- Model of utils.js `cosineSimilarity` (lines 100-108); `none` is the
`NaN` produced when a zero vector makes the denominator zero. -/
noncomputable def cosineSimilarity (a b : List ℝ) : Option ℝ :=
  let dot := (List.zipWith (fun x y => x * y) a b).sum
  let normA := (a.map fun x => x * x).sum
  let normB := (b.map fun x => x * x).sum
  if Real.sqrt normA * Real.sqrt normB = 0 then none
  else some (dot / (Real.sqrt normA * Real.sqrt normB))

/-- IEEE comparison `x < t` as in JS: any comparison involving `NaN`
(here `none`) is false. -/
noncomputable def jsLt (x : Option ℝ) (t : ℝ) : Bool :=
  match x with
  | none => false
  | some v => decide (v < t)

/-- The mutable state of the chunking loop: the emitted `chunks` (kept as
sentence lists; the JS code joins each with single spaces on emission),
the accumulating `currentSentences` and `currentTokens`. -/
structure ChunkState (α : Type) where
  chunks : List (List α)
  cur : List α
  curTokens : ℕ

/-- One iteration of the loop of `semanticChunkWithLimits` (lines 151-188)
for a sentence `s` preceded by `prev`, in the case where the current chunk
is non-empty: compute the similarity with the previous sentence, decide
`shouldSplit`, and either emit the current chunk and start a new one with
`s`, or append `s`. -/
noncomputable def chunkStep {α : Type} (threshold : ℝ) (maxTokens minTokens : ℕ)
    (embed : α → List ℝ) (tok : α → ℕ) (prev s : α) (st : ChunkState α) : ChunkState α :=
  let similarity := cosineSimilarity (embed prev) (embed s)
  let shouldSplit := jsLt similarity threshold || decide (maxTokens < st.curTokens + tok s)
  if shouldSplit && decide (minTokens ≤ st.curTokens) then
    ⟨st.chunks ++ [st.cur], [s], tok s⟩
  else
    ⟨st.chunks, st.cur ++ [s], st.curTokens + tok s⟩

/-- The loop of `semanticChunkWithLimits` from the second sentence on,
carrying the previously processed sentence `prev` (the JS code reads its
embedding as `sentenceEmbeddings[i - 1]`). -/
noncomputable def chunkLoop {α : Type} (threshold : ℝ) (maxTokens minTokens : ℕ)
    (embed : α → List ℝ) (tok : α → ℕ) : α → List α → ChunkState α → ChunkState α
  | _, [], st => st
  | prev, s :: rest, st =>
    chunkLoop threshold maxTokens minTokens embed tok s rest
      (chunkStep threshold maxTokens minTokens embed tok prev s st)

/-- Model of utils.js `semanticChunkWithLimits` (lines 131-196) at the
sentence level: the function is parameterised by the sentence list (the
output of the external segmenter), the embedding function and the token
counter, and returns the chunks as sentence lists (the JS code returns
each joined with single spaces).  The first loop iteration always hits the
`!currentSentences.length` branch and unconditionally opens the current
chunk with the first sentence; that iteration is unrolled into the initial
state here.  The final `if (currentSentences.length)` flush is kept. -/
noncomputable def semanticChunkWithLimits {α : Type} (threshold : ℝ)
    (maxTokens minTokens : ℕ) (embed : α → List ℝ) (tok : α → ℕ)
    (sentences : List α) : List (List α) :=
  match sentences with
  | [] => []
  | s :: rest =>
    let final := chunkLoop threshold maxTokens minTokens embed tok s rest ⟨[], [s], tok s⟩
    final.chunks ++ (if final.cur.isEmpty then [] else [final.cur])

/-- The cumulative token count of a chunk: the sum of its sentences'
token counts, which is what `currentTokens` accumulates. -/
def tokenSum {α : Type} (tok : α → ℕ) (c : List α) : ℕ := (c.map tok).sum

/-! ## Lemmas and claim theorems -/

theorem mrrGo_eq (keywords : List String) :
    ∀ (rs : List SearchResult) (i : ℕ),
      mrrGo keywords rs i =
        (match firstRelIdx keywords rs with
          | some j => 1 / ((i : ℝ) + (j : ℝ) + 1)
          | none => 0) := by
  intro rs
  induction rs with
  | nil => intro i; rfl
  | cons r t ih =>
    intro i
    by_cases hr : isRelevantRes keywords r
    · simp [mrrGo, firstRelIdx, hr]
    · rw [mrrGo, if_neg hr, ih (i + 1), firstRelIdx, if_neg hr]
      cases h : firstRelIdx keywords t with
      | none => simp
      | some j =>
        simp only [Option.map_some']
        push_cast
        ring_nf

/-- C4: `calculateMRR` returns `1 / (1 + i)` where `i` is the 0-based index
of the first result whose text contains at least one keyword
(case-insensitively), returns exactly `0` when no result is relevant, and
is monotonically non-increasing as the position of the first relevant
result increases. -/
theorem calculateMRR_spec (keywords : List String) :
    (∀ (rs : List SearchResult) (i : ℕ), firstRelIdx keywords rs = some i →
        calculateMRR rs keywords = 1 / (1 + (i : ℝ)))
    ∧ (∀ rs : List SearchResult, firstRelIdx keywords rs = none →
        calculateMRR rs keywords = 0)
    ∧ (∀ (rs rs' : List SearchResult) (i j : ℕ), firstRelIdx keywords rs = some i →
        firstRelIdx keywords rs' = some j → i ≤ j →
        calculateMRR rs' keywords ≤ calculateMRR rs keywords) := by
  have key : ∀ (rs : List SearchResult) (i : ℕ), firstRelIdx keywords rs = some i →
      calculateMRR rs keywords = 1 / (1 + (i : ℝ)) := by
    intro rs i h
    rw [calculateMRR, mrrGo_eq, h]
    norm_num [add_comm]
  refine ⟨key, ?_, ?_⟩
  · intro rs h
    rw [calculateMRR, mrrGo_eq, h]
  · intro rs rs' i j hi hj hij
    rw [key rs i hi, key rs' j hj]
    have h1 : (0 : ℝ) < 1 + (i : ℝ) := by positivity
    have h2 : (1 : ℝ) + (i : ℝ) ≤ 1 + (j : ℝ) := by
      have := (Nat.cast_le (α := ℝ)).mpr hij
      linarith
    exact one_div_le_one_div_of_le h1 h2

theorem calculateMRR_spec_witness :
    firstRelIdx ["x"] [⟨"xy z"⟩] = some 0
    ∧ calculateMRR [⟨"xy z"⟩] ["x"] = 1 / (1 + ((0 : ℕ) : ℝ)) :=
  ⟨by decide, (calculateMRR_spec ["x"]).1 [⟨"xy z"⟩] 0 (by decide)⟩

/-- C6 (the code side of the claim): with an empty keyword list,
`calculateKeywordCoverage` silently computes `0/0`, i.e. JS `NaN`
(modelled as `none`), for every result list — there is no explicit
policy and no rejection. -/
theorem calculateKeywordCoverage_empty_nan (results : List SearchResult) :
    calculateKeywordCoverage results [] = none := rfl

/-- C7: for a non-empty keyword list, `calculateKeywordCoverage` returns
the number of keywords found (case-insensitively, as substrings of the
space-joined retrieved texts) divided by the total keyword count; on the
concrete scenario of the spec it returns 1.0, resp. 0.0. -/
theorem calculateKeywordCoverage_spec (results : List SearchResult)
    (keywords : List String) (hk : keywords ≠ []) :
    calculateKeywordCoverage results keywords =
      some (((keywords.filter fun k =>
          strIncludes (combinedText results) (strLower k)).length : ℝ) / keywords.length)
    ∧ calculateKeywordCoverage [⟨"Avery Lancaster is the CEO"⟩] ["Avery", "CEO"] = some 1
    ∧ calculateKeywordCoverage [⟨"Lancaster is an employee"⟩] ["Avery", "CEO"] = some 0 := by
  have hlen : keywords.length ≠ 0 := fun h0 => hk (List.length_eq_zero.mp h0)
  refine ⟨?_, ?_, ?_⟩
  · simp [calculateKeywordCoverage, jsDivNat, hlen]
  · have e1 : (["Avery", "CEO"].filter fun k =>
        strIncludes (combinedText [⟨"Avery Lancaster is the CEO"⟩]) (strLower k)) =
          ["Avery", "CEO"] := by decide
    simp only [calculateKeywordCoverage, e1]
    norm_num [jsDivNat]
  · have e2 : (["Avery", "CEO"].filter fun k =>
        strIncludes (combinedText [⟨"Lancaster is an employee"⟩]) (strLower k)) =
          ([] : List String) := by decide
    simp only [calculateKeywordCoverage, e2]
    norm_num [jsDivNat]

theorem calculateKeywordCoverage_spec_witness :
    (["Avery", "CEO"] : List String) ≠ []
    ∧ calculateKeywordCoverage [⟨"Avery Lancaster is the CEO"⟩] ["Avery", "CEO"] = some 1 :=
  ⟨List.cons_ne_nil _ _,
    (calculateKeywordCoverage_spec [] ["Avery", "CEO"] (List.cons_ne_nil _ _)).2.1⟩

/-- C9 (the code side of the claim): `runFullEvaluation` on an empty list
of test questions does not fail; it silently returns a record whose
aggregate metrics are all `NaN` (`0/0`, modelled as `none`). -/
theorem runFullEvaluation_empty {TC : Type} (evalFn : TC → QueryResult) :
    runFullEvaluation evalFn [] = ⟨0, ⟨none, none, none⟩, [], []⟩ := rfl

/-! ### Chunker loop invariants -/

theorem chunkStep_cases {α : Type} (threshold : ℝ) (maxTokens minTokens : ℕ)
    (embed : α → List ℝ) (tok : α → ℕ) (prev s : α) (st : ChunkState α) :
    (chunkStep threshold maxTokens minTokens embed tok prev s st =
        ⟨st.chunks ++ [st.cur], [s], tok s⟩ ∧ minTokens ≤ st.curTokens)
    ∨ chunkStep threshold maxTokens minTokens embed tok prev s st =
        ⟨st.chunks, st.cur ++ [s], st.curTokens + tok s⟩ := by
  simp only [chunkStep]
  split
  next h =>
    left
    simp only [Bool.and_eq_true, decide_eq_true_eq] at h
    exact ⟨rfl, h.2⟩
  next h => right; rfl

theorem chunkStep_flatten {α : Type} (threshold : ℝ) (maxTokens minTokens : ℕ)
    (embed : α → List ℝ) (tok : α → ℕ) (prev s : α) (st : ChunkState α) :
    ((chunkStep threshold maxTokens minTokens embed tok prev s st).chunks).flatten ++
        (chunkStep threshold maxTokens minTokens embed tok prev s st).cur =
      st.chunks.flatten ++ st.cur ++ [s] := by
  rcases chunkStep_cases threshold maxTokens minTokens embed tok prev s st with ⟨h, -⟩ | h <;>
    rw [h] <;> simp

theorem chunkStep_preserve {α : Type} (threshold : ℝ) (maxTokens minTokens : ℕ)
    (embed : α → List ℝ) (tok : α → ℕ) (prev s : α) (st : ChunkState α)
    (h1 : st.cur ≠ []) (h2 : ∀ c ∈ st.chunks, c ≠ []) :
    (chunkStep threshold maxTokens minTokens embed tok prev s st).cur ≠ []
    ∧ ∀ c ∈ (chunkStep threshold maxTokens minTokens embed tok prev s st).chunks, c ≠ [] := by
  rcases chunkStep_cases threshold maxTokens minTokens embed tok prev s st with ⟨h, -⟩ | h <;>
    rw [h]
  · refine ⟨by simp, ?_⟩
    intro c hc
    rcases List.mem_append.mp hc with h' | h'
    · exact h2 c h'
    · simp only [List.mem_singleton] at h'
      exact h' ▸ h1
  · exact ⟨by simp, h2⟩

theorem chunkStep_tokens {α : Type} (threshold : ℝ) (maxTokens minTokens : ℕ)
    (embed : α → List ℝ) (tok : α → ℕ) (prev s : α) (st : ChunkState α)
    (h1 : st.curTokens = tokenSum tok st.cur)
    (h2 : ∀ c ∈ st.chunks, minTokens ≤ tokenSum tok c) :
    (chunkStep threshold maxTokens minTokens embed tok prev s st).curTokens =
        tokenSum tok (chunkStep threshold maxTokens minTokens embed tok prev s st).cur
    ∧ ∀ c ∈ (chunkStep threshold maxTokens minTokens embed tok prev s st).chunks,
        minTokens ≤ tokenSum tok c := by
  rcases chunkStep_cases threshold maxTokens minTokens embed tok prev s st with ⟨h, hmin⟩ | h <;>
    rw [h]
  · refine ⟨by simp [tokenSum], ?_⟩
    intro c hc
    rcases List.mem_append.mp hc with h' | h'
    · exact h2 c h'
    · simp only [List.mem_singleton] at h'
      subst h'
      exact h1 ▸ hmin
  · exact ⟨by simp [tokenSum, h1], h2⟩

theorem chunkLoop_flatten {α : Type} (threshold : ℝ) (maxTokens minTokens : ℕ)
    (embed : α → List ℝ) (tok : α → ℕ) :
    ∀ (rest : List α) (prev : α) (st : ChunkState α),
      ((chunkLoop threshold maxTokens minTokens embed tok prev rest st).chunks).flatten ++
          (chunkLoop threshold maxTokens minTokens embed tok prev rest st).cur =
        st.chunks.flatten ++ st.cur ++ rest := by
  intro rest
  induction rest with
  | nil => intro prev st; simp [chunkLoop]
  | cons s r ih =>
    intro prev st
    rw [chunkLoop, ih s, chunkStep_flatten]
    simp

theorem chunkLoop_preserve {α : Type} (threshold : ℝ) (maxTokens minTokens : ℕ)
    (embed : α → List ℝ) (tok : α → ℕ) :
    ∀ (rest : List α) (prev : α) (st : ChunkState α), st.cur ≠ [] →
      (∀ c ∈ st.chunks, c ≠ []) →
      (chunkLoop threshold maxTokens minTokens embed tok prev rest st).cur ≠ []
      ∧ ∀ c ∈ (chunkLoop threshold maxTokens minTokens embed tok prev rest st).chunks,
          c ≠ [] := by
  intro rest
  induction rest with
  | nil => intro prev st h1 h2; exact ⟨h1, h2⟩
  | cons s r ih =>
    intro prev st h1 h2
    rw [chunkLoop]
    have hstep := chunkStep_preserve threshold maxTokens minTokens embed tok prev s st h1 h2
    exact ih s _ hstep.1 hstep.2

theorem chunkLoop_tokens {α : Type} (threshold : ℝ) (maxTokens minTokens : ℕ)
    (embed : α → List ℝ) (tok : α → ℕ) :
    ∀ (rest : List α) (prev : α) (st : ChunkState α),
      st.curTokens = tokenSum tok st.cur →
      (∀ c ∈ st.chunks, minTokens ≤ tokenSum tok c) →
      ∀ c ∈ (chunkLoop threshold maxTokens minTokens embed tok prev rest st).chunks,
        minTokens ≤ tokenSum tok c := by
  intro rest
  induction rest with
  | nil => intro prev st _ h2; exact h2
  | cons s r ih =>
    intro prev st h1 h2
    rw [chunkLoop]
    have hstep := chunkStep_tokens threshold maxTokens minTokens embed tok prev s st h1 h2
    exact ih s _ hstep.1 hstep.2

theorem semanticChunk_cons {α : Type} (threshold : ℝ) (maxTokens minTokens : ℕ)
    (embed : α → List ℝ) (tok : α → ℕ) (s : α) (rest : List α) :
    semanticChunkWithLimits threshold maxTokens minTokens embed tok (s :: rest) =
      (chunkLoop threshold maxTokens minTokens embed tok s rest ⟨[], [s], tok s⟩).chunks ++
        [(chunkLoop threshold maxTokens minTokens embed tok s rest ⟨[], [s], tok s⟩).cur] := by
  have hne := (chunkLoop_preserve threshold maxTokens minTokens embed tok rest s
    ⟨[], [s], tok s⟩ (by simp) (by simp)).1
  rw [semanticChunkWithLimits]
  cases h : (chunkLoop threshold maxTokens minTokens embed tok s rest ⟨[], [s], tok s⟩).cur with
  | nil => exact absurd h hne
  | cons x t => simp [h]

theorem flatten_head {α : Type} (L : List (List α)) (s₀ : α) (rest : List α)
    (hj : L.flatten = s₀ :: rest) (hne : ∀ c ∈ L, c ≠ []) :
    ∃ (t : List α) (cs : List (List α)), L = (s₀ :: t) :: cs := by
  cases L with
  | nil => simp at hj
  | cons c cs =>
    cases c with
    | nil => exact absurd rfl (hne [] (List.mem_cons_self _ _))
    | cons x t =>
      simp only [List.flatten_cons, List.cons_append] at hj
      exact ⟨t, cs, by rw [(List.cons.inj hj).1]⟩

/-- C1: for every document (sentence list), embedding function and token
counter, the chunks returned by `semanticChunkWithLimits` partition the
sentence sequence — their concatenation, in output order, is exactly the
input sentence list (no sentence duplicated, dropped or reordered), and
every chunk is non-empty. -/
theorem semanticChunk_partition {α : Type} (threshold : ℝ) (maxTokens minTokens : ℕ)
    (embed : α → List ℝ) (tok : α → ℕ) (sentences : List α) :
    (semanticChunkWithLimits threshold maxTokens minTokens embed tok sentences).flatten =
      sentences
    ∧ ((semanticChunkWithLimits threshold maxTokens minTokens embed tok sentences).all
        fun c => !c.isEmpty) = true := by
  cases sentences with
  | nil => exact ⟨rfl, rfl⟩
  | cons s rest =>
    have hj := chunkLoop_flatten threshold maxTokens minTokens embed tok rest s ⟨[], [s], tok s⟩
    have hne := chunkLoop_preserve threshold maxTokens minTokens embed tok rest s
      ⟨[], [s], tok s⟩ (by simp) (by simp)
    rw [semanticChunk_cons]
    constructor
    · simpa using hj
    · rw [List.all_eq_true]
      intro c hc
      rcases List.mem_append.mp hc with h' | h'
      · have := hne.2 c h'
        simpa [List.isEmpty_iff] using this
      · simp only [List.mem_singleton] at h'
        subst h'
        simpa [List.isEmpty_iff] using hne.1

/-- C10: every chunk emitted before the last one has a cumulative token
count (the sum of its sentences' token counts) of at least `minTokens`.
This is the claim's invariant in its strong form: the `minTokens`
disjunct always holds, so the claim's forced-first-chunk escape hatch is
never needed. -/
theorem semanticChunk_minTokens {α : Type} (threshold : ℝ) (maxTokens minTokens : ℕ)
    (embed : α → List ℝ) (tok : α → ℕ) (sentences : List α) :
    (((semanticChunkWithLimits threshold maxTokens minTokens embed tok
        sentences).dropLast).all fun c => decide (minTokens ≤ tokenSum tok c)) = true := by
  cases sentences with
  | nil => rfl
  | cons s rest =>
    have ht := chunkLoop_tokens threshold maxTokens minTokens embed tok rest s
      ⟨[], [s], tok s⟩ (by simp [tokenSum]) (by simp)
    rw [semanticChunk_cons, List.dropLast_concat, List.all_eq_true]
    intro c hc
    exact decide_eq_true (ht c hc)

/-- C2: in the chunking loop, the first sentence always opens the current
chunk; for a subsequent sentence whose cosine similarity with the
immediately preceding sentence is defined and equal to `v`, a split is a
candidate exactly when `v < threshold` or the running token total plus the
sentence's token count exceeds `maxTokens`, and it is committed (current
chunk emitted, new chunk started with this sentence) if and only if the
running token total is at least `minTokens`; otherwise the sentence is
appended to the current chunk. -/
theorem chunkStep_split_policy {α : Type} (threshold : ℝ) (maxTokens minTokens : ℕ)
    (embed : α → List ℝ) (tok : α → ℕ) (prev s : α) (st : ChunkState α) (v : ℝ)
    (hv : cosineSimilarity (embed prev) (embed s) = some v) :
    ((v < threshold ∨ maxTokens < st.curTokens + tok s) ∧ minTokens ≤ st.curTokens →
        chunkStep threshold maxTokens minTokens embed tok prev s st =
          ⟨st.chunks ++ [st.cur], [s], tok s⟩)
    ∧ (¬ ((v < threshold ∨ maxTokens < st.curTokens + tok s) ∧ minTokens ≤ st.curTokens) →
        chunkStep threshold maxTokens minTokens embed tok prev s st =
          ⟨st.chunks, st.cur ++ [s], st.curTokens + tok s⟩)
    ∧ ∀ (s₀ : α) (rest : List α), ∃ (t : List α) (cs : List (List α)),
        semanticChunkWithLimits threshold maxTokens minTokens embed tok (s₀ :: rest) =
          (s₀ :: t) :: cs := by
  have hcond : ((jsLt (cosineSimilarity (embed prev) (embed s)) threshold ||
      decide (maxTokens < st.curTokens + tok s)) &&
        decide (minTokens ≤ st.curTokens)) = true ↔
      (v < threshold ∨ maxTokens < st.curTokens + tok s) ∧ minTokens ≤ st.curTokens := by
    rw [hv]
    simp [jsLt]
  refine ⟨?_, ?_, ?_⟩
  · intro hyp
    simp only [chunkStep]
    rw [if_pos (hcond.mpr hyp)]
  · intro hyp
    simp only [chunkStep]
    rw [if_neg (fun hb => hyp (hcond.mp hb))]
  · intro s₀ rest
    have hj := chunkLoop_flatten threshold maxTokens minTokens embed tok rest s₀
      ⟨[], [s₀], tok s₀⟩
    have hne := chunkLoop_preserve threshold maxTokens minTokens embed tok rest s₀
      ⟨[], [s₀], tok s₀⟩ (by simp) (by simp)
    rw [semanticChunk_cons]
    refine flatten_head _ s₀ rest (by simpa using hj) ?_
    intro c hc
    rcases List.mem_append.mp hc with h' | h'
    · exact hne.2 c h'
    · simp only [List.mem_singleton] at h'
      exact h' ▸ hne.1

theorem chunkStep_split_policy_witness :
    cosineSimilarity ((fun _ : ℕ => [(1 : ℝ)]) 0) ((fun _ : ℕ => [(1 : ℝ)]) 1) = some 1
    ∧ chunkStep 2 10 1 (fun _ : ℕ => [(1 : ℝ)]) (fun _ => 1) 0 1 ⟨[], [0], 5⟩ =
        ⟨[[0]], [1], 1⟩ := by
  have hv : cosineSimilarity ((fun _ : ℕ => [(1 : ℝ)]) 0) ((fun _ : ℕ => [(1 : ℝ)]) 1) =
      some 1 := by
    simp [cosineSimilarity]
  exact ⟨hv, (chunkStep_split_policy 2 10 1 (fun _ : ℕ => [(1 : ℝ)]) (fun _ => 1) 0 1
    ⟨[], [0], 5⟩ 1 hv).1 ⟨Or.inl (by norm_num), by norm_num⟩⟩

/-- C5 (the code side of the claim): when the second embedding is the zero
vector, `cosineSimilarity` is `NaN` (`none`), and the chunker does NOT
force a split: the IEEE comparison `NaN < threshold` is false, so the pair
is treated as maximally similar and both sentences land in one chunk, even
though `minTokens = 0` would let a candidate split commit. -/
theorem chunker_zero_vector_no_split :
    cosineSimilarity [(1 : ℝ)] [(0 : ℝ)] = none
    ∧ semanticChunkWithLimits 1 10 0
        (fun n : ℕ => if n = 0 then [(1 : ℝ)] else [(0 : ℝ)]) (fun _ => 1) [0, 1] =
        [[0, 1]] := by
  have hcos : cosineSimilarity [(1 : ℝ)] [(0 : ℝ)] = none := by
    simp [cosineSimilarity]
  refine ⟨hcos, ?_⟩
  rw [semanticChunkWithLimits]
  rw [chunkLoop, chunkLoop]
  have hstep : chunkStep 1 10 0 (fun n : ℕ => if n = 0 then [(1 : ℝ)] else [(0 : ℝ)])
      (fun _ => 1) 0 1 ⟨[], [0], 1⟩ = ⟨[], [0, 1], 2⟩ := by
    simp only [chunkStep]
    rw [if_neg]
    · rfl
    · simp [hcos, jsLt]
  rw [hstep]
  rfl

/-! ### nDCG lemmas: the discounted sum and the rearrangement bound -/

theorem weightedGain_eq_sum :
    ∀ (l : List ℝ) (w : ℕ → ℝ),
      weightedGain w l = ∑ i in Finset.range l.length, l.getD i 0 / w i := by
  intro l
  induction l with
  | nil => intro w; simp [weightedGain]
  | cons a t ih =>
    intro w
    rw [weightedGain, ih, List.length_cons, Finset.sum_range_succ']
    simp only [List.getD_cons_succ, List.getD_cons_zero]
    exact add_comm _ _

theorem weightedGain_nonneg :
    ∀ (l : List ℝ) (w : ℕ → ℝ), (∀ x ∈ l, 0 ≤ x) → (∀ i, 0 < w i) →
      0 ≤ weightedGain w l := by
  intro l
  induction l with
  | nil => intro w _ _; exact le_refl 0
  | cons a t ih =>
    intro w hl hw
    rw [weightedGain]
    have h1 : 0 ≤ a / w 0 := div_nonneg (hl a (List.mem_cons_self a t)) (hw 0).le
    have h2 : 0 ≤ weightedGain (fun i => w (i + 1)) t :=
      ih _ (fun x hx => hl x (List.mem_cons_of_mem a hx)) (fun i => hw (i + 1))
    linarith

theorem weightedGain_orderedInsert :
    ∀ (l : List ℝ) (w : ℕ → ℝ), (∀ i j, i ≤ j → w i ≤ w j) → (∀ i, 0 < w i) → ∀ a : ℝ,
      a / w 0 + weightedGain (fun i => w (i + 1)) l ≤
        weightedGain w (List.orderedInsert (fun x y : ℝ => y ≤ x) a l) := by
  intro l
  induction l with
  | nil =>
    intro w _ _ a
    simp [List.orderedInsert, weightedGain]
  | cons b t ih =>
    intro w hm hp a
    by_cases hab : b ≤ a
    · rw [List.orderedInsert, if_pos hab]
      simp [weightedGain]
    · have hba : a ≤ b := le_of_not_le hab
      rw [List.orderedInsert, if_neg hab]
      have hIH := ih (fun i => w (i + 1))
        (fun i j hij => hm (i + 1) (j + 1) (by omega))
        (fun i => hp (i + 1)) a
      have h0 : a / w 1 + weightedGain (fun i => w (i + 1 + 1)) t ≤
          weightedGain (fun i => w (i + 1))
            (List.orderedInsert (fun x y : ℝ => y ≤ x) a t) := by
        simpa using hIH
      have hswap : a / w 0 + b / w 1 ≤ b / w 0 + a / w 1 := by
        have h1 : (b - a) / w 1 ≤ (b - a) / w 0 :=
          div_le_div_of_nonneg_left (sub_nonneg.mpr hba) (hp 0) (hm 0 1 (by omega))
        rw [sub_div, sub_div] at h1
        linarith
      have hL : weightedGain (fun i => w (i + 1)) (b :: t) =
          b / w 1 + weightedGain (fun i => w (i + 1 + 1)) t := by
        simp [weightedGain]
      have hR : weightedGain w (b :: List.orderedInsert (fun x y : ℝ => y ≤ x) a t) =
          b / w 0 + weightedGain (fun i => w (i + 1))
            (List.orderedInsert (fun x y : ℝ => y ≤ x) a t) := by
        simp [weightedGain]
      rw [hL, hR]
      linarith

theorem weightedGain_le_sortDesc :
    ∀ (l : List ℝ) (w : ℕ → ℝ), (∀ i j, i ≤ j → w i ≤ w j) → (∀ i, 0 < w i) →
      weightedGain w l ≤ weightedGain w (sortDesc l) := by
  intro l
  induction l with
  | nil => intro w _ _; exact le_refl _
  | cons a t ih =>
    intro w hm hp
    show weightedGain w (a :: t) ≤
      weightedGain w (List.insertionSort (fun x y : ℝ => y ≤ x) (a :: t))
    rw [List.insertionSort, weightedGain]
    have h1 : weightedGain (fun i => w (i + 1)) t ≤
        weightedGain (fun i => w (i + 1)) (sortDesc t) :=
      ih (fun i => w (i + 1)) (fun i j hij => hm (i + 1) (j + 1) (by omega))
        (fun i => hp (i + 1))
    have h2 : a / w 0 + weightedGain (fun i => w (i + 1)) (sortDesc t) ≤
        weightedGain w (List.orderedInsert (fun x y : ℝ => y ≤ x) a (sortDesc t)) :=
      weightedGain_orderedInsert (sortDesc t) w hm hp a
    calc a / w 0 + weightedGain (fun i => w (i + 1)) t
        ≤ a / w 0 + weightedGain (fun i => w (i + 1)) (sortDesc t) := by linarith
      _ ≤ weightedGain w (List.orderedInsert (fun x y : ℝ => y ≤ x) a (sortDesc t)) := h2

theorem discount_pos (i : ℕ) : 0 < discount i := by
  have h2 : (1 : ℝ) < (i : ℝ) + 2 := by
    have := Nat.cast_nonneg (α := ℝ) i
    linarith
  exact Real.logb_pos (by norm_num) h2

theorem discount_mono : ∀ i j : ℕ, i ≤ j → discount i ≤ discount j := by
  intro i j hij
  have hx : (0 : ℝ) < (i : ℝ) + 2 := by positivity
  have hxy : (i : ℝ) + 2 ≤ (j : ℝ) + 2 := by
    have := (Nat.cast_le (α := ℝ)).mpr hij
    linarith
  exact Real.logb_le_logb_of_le (by norm_num) hx hxy

theorem relevanceScore_nonneg (keywords : List String) (r : SearchResult) :
    0 ≤ relevanceScore keywords r :=
  div_nonneg (Nat.cast_nonneg _) (Nat.cast_nonneg _)

/-- C3: `calculateNDCG` computes per-position relevance as the fraction of
keywords found in that result's text, DCG as the sum over 0-indexed
positions `i` of `relevance_i / log2(i + 2)`, IDCG as the same sum over
the relevance values sorted descending, and returns `DCG / IDCG` with `0`
when `IDCG = 0`; for `IDCG > 0` the returned value lies in `[0, 1]`. -/
theorem calculateNDCG_spec (results : List SearchResult) (keywords : List String)
    (_hk : keywords ≠ []) :
    dcgOf results keywords =
      ∑ i in Finset.range (results.map (relevanceScore keywords)).length,
        (results.map (relevanceScore keywords)).getD i 0 / Real.logb 2 ((i : ℝ) + 2)
    ∧ idcgOf results keywords =
      ∑ i in Finset.range (sortDesc (results.map (relevanceScore keywords))).length,
        (sortDesc (results.map (relevanceScore keywords))).getD i 0 /
          Real.logb 2 ((i : ℝ) + 2)
    ∧ (idcgOf results keywords = 0 → calculateNDCG results keywords = 0)
    ∧ (0 < idcgOf results keywords →
        calculateNDCG results keywords = dcgOf results keywords / idcgOf results keywords
        ∧ 0 ≤ calculateNDCG results keywords ∧ calculateNDCG results keywords ≤ 1) := by
  have hrelnn : ∀ x ∈ results.map (relevanceScore keywords), 0 ≤ x := by
    intro x hx
    obtain ⟨r, -, hr⟩ := List.mem_map.mp hx
    exact hr ▸ relevanceScore_nonneg keywords r
  have hdcg0 : 0 ≤ dcgOf results keywords :=
    weightedGain_nonneg _ discount hrelnn discount_pos
  have hle : dcgOf results keywords ≤ idcgOf results keywords :=
    weightedGain_le_sortDesc _ discount discount_mono discount_pos
  refine ⟨?_, ?_, ?_, ?_⟩
  · rw [dcgOf, weightedGain_eq_sum]
    simp [discount]
  · rw [idcgOf, weightedGain_eq_sum]
    simp [discount]
  · intro h
    rw [calculateNDCG, if_pos h]
  · intro h
    have hne := ne_of_gt h
    rw [calculateNDCG, if_neg hne]
    exact ⟨rfl, div_nonneg hdcg0 h.le, (div_le_one h).mpr hle⟩

theorem calculateNDCG_spec_witness :
    (["a"] : List String) ≠ [] ∧ calculateNDCG [] ["a"] = 0 :=
  ⟨List.cons_ne_nil _ _, (calculateNDCG_spec [] ["a"] (List.cons_ne_nil _ _)).2.2.1 rfl⟩

/-! ### Aggregation lemmas -/

theorem sumBy_eq_sum (f : QueryResult → ℝ) :
    ∀ rs : List QueryResult, sumBy f rs = (rs.map f).sum := by
  have key : ∀ (rs : List QueryResult) (a : ℝ),
      rs.foldl (fun acc r => acc + f r) a = a + (rs.map f).sum := by
    intro rs
    induction rs with
    | nil => intro a; simp
    | cons r t ih =>
      intro a
      rw [List.foldl_cons, ih, List.map_cons, List.sum_cons]
      ring
  intro rs
  rw [sumBy, key, zero_add]

theorem mem_of_mem_dedupGo :
    ∀ (l seen : List String) (c : String), c ∈ dedupGo seen l → c ∈ l := by
  intro l
  induction l with
  | nil => intro seen c h; exact absurd h (by simp [dedupGo])
  | cons c' rest ih =>
    intro seen c h
    rw [dedupGo] at h
    by_cases hmem : c' ∈ seen
    · rw [if_pos hmem] at h
      exact List.mem_cons_of_mem c' (ih seen c h)
    · rw [if_neg hmem] at h
      rcases List.mem_cons.mp h with h' | h'
      · exact h' ▸ List.mem_cons_self c' rest
      · exact List.mem_cons_of_mem c' (ih (c' :: seen) c h')

theorem filter_category_ne_nil (rs : List QueryResult) (c : String)
    (h : c ∈ rs.map fun r => r.category) :
    (rs.filter fun r => r.category == c) ≠ [] := by
  obtain ⟨r, hr, hcat⟩ := List.mem_map.mp h
  exact List.ne_nil_of_mem (List.mem_filter.mpr ⟨hr, by simp [hcat]⟩)

/-- C8: for a non-empty list of per-query results, the aggregate metrics
produced by `runFullEvaluation` are, for each metric key, exactly the
arithmetic mean of that metric over all per-query results, and every
per-category entry is exactly the arithmetic mean over the queries of that
category. -/
theorem runFullEvaluation_mean {TC : Type} (evalFn : TC → QueryResult) (qs : List TC)
    (h : qs ≠ []) :
    ((runFullEvaluation evalFn qs).aggregateMetrics.keywordCoverage =
        some (((qs.map evalFn).map fun r => r.metrics.keywordCoverage).sum /
          (qs.map evalFn).length))
    ∧ ((runFullEvaluation evalFn qs).aggregateMetrics.mrr =
        some (((qs.map evalFn).map fun r => r.metrics.mrr).sum / (qs.map evalFn).length))
    ∧ ((runFullEvaluation evalFn qs).aggregateMetrics.ndcg =
        some (((qs.map evalFn).map fun r => r.metrics.ndcg).sum / (qs.map evalFn).length))
    ∧ ∀ c cm, (c, cm) ∈ (runFullEvaluation evalFn qs).metricsByCategory →
        cm.count = ((qs.map evalFn).filter fun r => r.category == c).length
        ∧ cm.keywordCoverage =
          some ((((qs.map evalFn).filter fun r => r.category == c).map
              fun r => r.metrics.keywordCoverage).sum /
            ((qs.map evalFn).filter fun r => r.category == c).length)
        ∧ cm.mrr =
          some ((((qs.map evalFn).filter fun r => r.category == c).map
              fun r => r.metrics.mrr).sum /
            ((qs.map evalFn).filter fun r => r.category == c).length)
        ∧ cm.ndcg =
          some ((((qs.map evalFn).filter fun r => r.category == c).map
              fun r => r.metrics.ndcg).sum /
            ((qs.map evalFn).filter fun r => r.category == c).length) := by
  have hrs : qs.map evalFn ≠ [] := fun h0 => h (List.map_eq_nil_iff.mp h0)
  have hlen : (qs.map evalFn).length ≠ 0 := fun h0 => hrs (List.length_eq_zero.mp h0)
  have hagg : (runFullEvaluation evalFn qs).aggregateMetrics =
      aggregateOver (qs.map evalFn) := rfl
  refine ⟨?_, ?_, ?_, ?_⟩
  · rw [hagg, aggregateOver]
    simp [jsDiv, hlen, sumBy_eq_sum, h]
  · rw [hagg, aggregateOver]
    simp [jsDiv, hlen, sumBy_eq_sum, h]
  · rw [hagg, aggregateOver]
    simp [jsDiv, hlen, sumBy_eq_sum, h]
  · intro c cm hmem
    have hmem' : (c, cm) ∈ metricsByCategory (qs.map evalFn) := hmem
    rw [metricsByCategory] at hmem'
    obtain ⟨c', hc', heq⟩ := List.mem_map.mp hmem'
    obtain ⟨hc, hcm⟩ := Prod.mk.injEq .. ▸ heq
    subst hc
    have hcat : c' ∈ (qs.map evalFn).map fun r => r.category :=
      mem_of_mem_dedupGo _ [] c' hc'
    have hfil : ((qs.map evalFn).filter fun r => r.category == c') ≠ [] :=
      filter_category_ne_nil (qs.map evalFn) c' hcat
    have hflen : ((qs.map evalFn).filter fun r => r.category == c').length ≠ 0 :=
      fun h0 => hfil (List.length_eq_zero.mp h0)
    rw [← hcm, categoryMetricsOf]
    refine ⟨rfl, ?_, ?_, ?_⟩ <;> simp [jsDiv, hflen, sumBy_eq_sum]

theorem runFullEvaluation_mean_witness :
    ([⟨"c", ⟨0, 0, 0⟩⟩] : List QueryResult) ≠ []
    ∧ (runFullEvaluation id [(⟨"c", ⟨0, 0, 0⟩⟩ : QueryResult)]).aggregateMetrics.mrr =
        some ((([(⟨"c", ⟨0, 0, 0⟩⟩ : QueryResult)].map id).map
            fun r => r.metrics.mrr).sum / ([(⟨"c", ⟨0, 0, 0⟩⟩ : QueryResult)].map id).length) :=
  ⟨List.cons_ne_nil _ _,
    (runFullEvaluation_mean id [⟨"c", ⟨0, 0, 0⟩⟩] (List.cons_ne_nil _ _)).2.1⟩

end RAG
